import Mathlib

/-
  Verification of the VGA text buffer driver in src/src/vga_buffer.rs.

  The driver renders ASCII bytes into a fixed 25 by 80 grid of two-byte
  cells (ascii byte + packed color byte), writing on the last row,
  wrapping at the width, and scrolling rows upward on a line advance.

  Shallow embedding conventions:
  - machine integers (u8, usize) are modelled as Nat; the code never
    overflows them on the inputs the claims quantify over;
  - the memory-mapped grid is modelled as a total function
    Nat -> Nat -> ScreenChar; only indices below 25 and 80 are relevant;
  - each volatile write is a pointwise functional update (writeCell);
  - the two nested for loops of Writer::new_line and the loop of
    Writer::clear_row are folds over the same index ranges the source
    iterates, in the same order, reading from the partially updated grid
    exactly as the source reads self.buffer;
  - the Writer record carries one ghost field, scrolls, incremented by
    new_line only, so that the number of line advances performed by an
    operation is observable in theorems; no source behavior depends on it.
-/

namespace Vga

/-- The 16 VGA palette colors, source enum Color with repr(u8) values 0..15. -/
inductive Color
  | Black
  | Blue
  | Green
  | Cyan
  | Red
  | Magenta
  | Brown
  | LightGray
  | DarkGray
  | LightBlue
  | LightGreen
  | LightCyan
  | LightRed
  | Pink
  | Yellow
  | White
  deriving DecidableEq

/-- The repr(u8) discriminant of each Color variant. -/
def Color.toNat : Color → Nat
  | .Black => 0
  | .Blue => 1
  | .Green => 2
  | .Cyan => 3
  | .Red => 4
  | .Magenta => 5
  | .Brown => 6
  | .LightGray => 7
  | .DarkGray => 8
  | .LightBlue => 9
  | .LightGreen => 10
  | .LightCyan => 11
  | .LightRed => 12
  | .Pink => 13
  | .Yellow => 14
  | .White => 15

/-- A packed color byte, source struct ColorCode(u8). -/
abbrev ColorCode := Nat

/-- Source ColorCode::new: background shifted left by 4, or-ed with foreground. -/
def ColorCode.new (foreground background : Color) : ColorCode :=
  Nat.lor (Nat.shiftLeft background.toNat 4) foreground.toNat

/-- One display cell, source struct ScreenChar: ascii byte plus color byte. -/
structure ScreenChar where
  ascii_character : Nat
  color_code : ColorCode
  deriving DecidableEq

/-- Source const BUFFER_HEIGHT: usize = 25. -/
def BUFFER_HEIGHT : Nat := 25

/-- Source const BUFFER_WIDTH: usize = 80. -/
def BUFFER_WIDTH : Nat := 80

/-- The memory-mapped character grid, source struct Buffer. Modelled as a
total function on row and column indices; only rows below BUFFER_HEIGHT and
columns below BUFFER_WIDTH are meaningful. -/
abbrev Grid := Nat → Nat → ScreenChar

/-- One volatile write of a cell at (r, c), as a functional update. -/
def writeCell (g : Grid) (r c : Nat) (ch : ScreenChar) : Grid :=
  fun rr cc => if rr = r ∧ cc = c then ch else g rr cc

/-- Source struct Writer: current column on the last row, active color, and
the grid. The scrolls field is a ghost counter of line advances, incremented
by new_line only; it is not part of the source state. -/
structure Writer where
  column_position : Nat
  color_code : ColorCode
  buffer : Grid
  scrolls : Nat

/-- The inner column loop of Writer::new_line, generalized over its bound n:
for col in 0..n, read the cell at (row, col) of the current grid and write it
at (row - 1, col). The source instantiates n with BUFFER_HEIGHT. -/
def copyColsAux (g : Grid) (row n : Nat) : Grid :=
  (List.range n).foldl (fun gg col => writeCell gg (row - 1) col (gg row col)) g

/-- The inner column loop of Writer::new_line as written in the source:
its bound is BUFFER_HEIGHT (25), not BUFFER_WIDTH (80). -/
def copyCols (g : Grid) (row : Nat) : Grid :=
  copyColsAux g row BUFFER_HEIGHT

/-- The outer row loop of Writer::new_line, generalized over the number of
rows k: for row in 1..(1+k), run the column copy loop. -/
def shiftRowsAux (g : Grid) (k : Nat) : Grid :=
  (List.range' 1 k).foldl copyCols g

/-- The outer row loop of Writer::new_line: for row in 1..BUFFER_HEIGHT. -/
def shiftRows (g : Grid) : Grid :=
  shiftRowsAux g (BUFFER_HEIGHT - 1)

/-- The column loop of Writer::clear_row, generalized over its bound n. -/
def clearColsAux (g : Grid) (row : Nat) (blank : ScreenChar) (n : Nat) : Grid :=
  (List.range n).foldl (fun gg col => writeCell gg row col blank) g

/-- Source Writer::clear_row: overwrite every cell of the given row with a
blank cell (ascii space 0x20, current color). -/
def clear_row (w : Writer) (row : Nat) : Writer :=
  let blank : ScreenChar := { ascii_character := 0x20, color_code := w.color_code }
  { w with buffer := clearColsAux w.buffer row blank BUFFER_WIDTH }

/-- Source Writer::new_line: run the row copy loops, clear the last row,
reset the column to 0. The ghost scrolls counter is incremented. -/
def new_line (w : Writer) : Writer :=
  let w1 : Writer := { w with buffer := shiftRows w.buffer }
  let w2 : Writer := clear_row w1 (BUFFER_HEIGHT - 1)
  { w2 with column_position := 0, scrolls := w.scrolls + 1 }

/-- Source Writer::write_byte: a newline byte (10) triggers new_line and
prints nothing; any other byte first triggers new_line when the column has
reached BUFFER_WIDTH, then is stored at (BUFFER_HEIGHT - 1, column) with the
active color, and the column advances by one. -/
def write_byte (w : Writer) (b : Nat) : Writer :=
  if b = 10 then new_line w
  else
    let w2 : Writer := if BUFFER_WIDTH ≤ w.column_position then new_line w else w
    { w2 with
      buffer := writeCell w2.buffer (BUFFER_HEIGHT - 1) w2.column_position
        { ascii_character := b, color_code := w2.color_code },
      column_position := w2.column_position + 1 }

/-- Source Writer::write_string: bytes in 0x20..=0x7e and the newline byte
are forwarded to write_byte unchanged; every other byte is forwarded as the
substitution glyph 0xfe. -/
def write_string (w : Writer) (s : List Nat) : Writer :=
  s.foldl
    (fun ww b =>
      if (0x20 ≤ b ∧ b ≤ 0x7e) ∨ b = 10 then write_byte ww b
      else write_byte ww 0xfe) w

/-- Modelled from the spec: the source file has no set_color method on
Writer; the spec describes set_color as replacing the active color used for
subsequent writes, without touching the grid. -/
def set_color (w : Writer) (c : ColorCode) : Writer :=
  { w with color_code := c }

/-- A byte is printable ASCII when it lies in 0x20..=0x7e. -/
def printable (b : Nat) : Prop := 0x20 ≤ b ∧ b ≤ 0x7e

instance (b : Nat) : Decidable (printable b) :=
  inferInstanceAs (Decidable (0x20 ≤ b ∧ b ≤ 0x7e))

/-- A byte the grid invariant allows: printable ASCII or the substitution
glyph 0xfe. -/
def printableOrSub (b : Nat) : Prop := (0x20 ≤ b ∧ b ≤ 0x7e) ∨ b = 0xfe

instance (b : Nat) : Decidable (printableOrSub b) :=
  inferInstanceAs (Decidable ((0x20 ≤ b ∧ b ≤ 0x7e) ∨ b = 0xfe))

/-- The spec invariant on the grid: every cell in range holds a printable
ascii byte or the substitution glyph. -/
def gridInv (g : Grid) : Prop :=
  ∀ r < BUFFER_HEIGHT, ∀ c < BUFFER_WIDTH, printableOrSub (g r c).ascii_character

instance (g : Grid) : Decidable (gridInv g) :=
  inferInstanceAs
    (Decidable (∀ r < BUFFER_HEIGHT, ∀ c < BUFFER_WIDTH,
      printableOrSub (g r c).ascii_character))

/-- One public operation on the writer. -/
inductive Op
  | byte (b : Nat)
  | str (s : List Nat)

/-- Run one public operation. -/
def runOp (w : Writer) (o : Op) : Writer :=
  match o with
  | Op.byte b => write_byte w b
  | Op.str s => write_string w s

/-- Run a sequence of public operations. -/
def runOps (w : Writer) (l : List Op) : Writer :=
  l.foldl runOp w

/-- An operation whose direct write_byte argument is printable, the newline
byte, or the substitution glyph; write_string calls are unrestricted. -/
def okByte : Op → Prop
  | Op.byte b => printableOrSub b ∨ b = 10
  | Op.str _ => True

instance : DecidablePred okByte := fun o =>
  match o with
  | Op.byte b => inferInstanceAs (Decidable (printableOrSub b ∨ b = 10))
  | Op.str _ => inferInstanceAs (Decidable True)

/-- Writing a list of bytes one by one through write_byte. -/
def writeBytes (w : Writer) (s : List Nat) : Writer :=
  s.foldl write_byte w

/-- Writing a list of color and byte pairs: before each byte the active
color is set to the paired color, then the byte goes through write_byte. -/
def writeColored (w : Writer) (ps : List (Nat × Nat)) : Writer :=
  ps.foldl (fun ww p => write_byte { ww with color_code := p.1 } p.2) w

/-- The byte actually forwarded to write_byte by write_string: printable
bytes and the newline byte pass through; everything else becomes 0xfe. -/
def substitute (b : Nat) : Nat :=
  if (0x20 ≤ b ∧ b ≤ 0x7e) ∨ b = 10 then b else 0xfe

/-- Eighty copies of the printable byte 65, one full row of input. -/
def s80 : List Nat := List.replicate 80 65

/-- A sample writer: column 0, the initial color of the source singleton
(ColorCode::new(Yellow, Black) = 14), and a grid of blanks. -/
def winv : Writer :=
  { column_position := 0
    color_code := 14
    buffer := fun _ _ => { ascii_character := 0x20, color_code := 14 }
    scrolls := 0 }

/-- A writer whose grid distinguishes column 40 of rows 0 and 1: row 0 holds
byte 65 there and row 1 holds byte 88; everything else is blank. -/
def wbug : Writer :=
  { column_position := 0
    color_code := 14
    buffer := fun r c =>
      if r = 0 ∧ c = 40 then { ascii_character := 65, color_code := 14 }
      else if r = 1 ∧ c = 40 then { ascii_character := 88, color_code := 14 }
      else { ascii_character := 0x20, color_code := 14 }
    scrolls := 0 }

/-
  Helper lemmas: pointwise characterization of the loops.
-/

theorem writeCell_apply (g : Grid) (r c : Nat) (ch : ScreenChar) (rr cc : Nat) :
    writeCell g r c ch rr cc = if rr = r ∧ cc = c then ch else g rr cc := rfl

theorem copyColsAux_succ (g : Grid) (row m : Nat) :
    copyColsAux g row (m + 1)
      = writeCell (copyColsAux g row m) (row - 1) m (copyColsAux g row m row m) := by
  unfold copyColsAux
  rw [List.range_succ, List.foldl_append]
  simp only [List.foldl_cons, List.foldl_nil]

theorem copyColsAux_apply (g : Grid) (row : Nat) (h1 : 1 ≤ row) (n : Nat) :
    ∀ r c, copyColsAux g row n r c
      = if r = row - 1 ∧ c < n then g row c else g r c := by
  induction n with
  | zero =>
    intro r c
    simp [copyColsAux]
  | succ m ih =>
    intro r c
    have hne : ¬ (row = row - 1) := by omega
    have hread : copyColsAux g row m row m = g row m := by
      rw [ih]
      simp [hne]
    rw [copyColsAux_succ, writeCell_apply, hread]
    by_cases hr : r = row - 1
    · by_cases hc : c = m
      · subst hr
        subst hc
        simp [Nat.lt_succ_self]
      · by_cases hcm : c < m
        · have hs : c < m + 1 := by omega
          simp [hc, hcm, hr, hs, ih]
        · have hs : ¬ c < m + 1 := by omega
          simp [hc, hcm, hr, hs, ih]
    · simp [hr, ih]

theorem copyCols_apply (g : Grid) (row : Nat) (h1 : 1 ≤ row) (r c : Nat) :
    copyCols g row r c = if r = row - 1 ∧ c < 25 then g row c else g r c := by
  show copyColsAux g row BUFFER_HEIGHT r c = _
  rw [copyColsAux_apply g row h1]
  rfl

theorem shiftRowsAux_succ (g : Grid) (k : Nat) :
    shiftRowsAux g (k + 1) = copyCols (shiftRowsAux g k) (1 + k) := by
  unfold shiftRowsAux
  rw [List.range'_1_concat, List.foldl_append]
  simp only [List.foldl_cons, List.foldl_nil]

theorem shiftRowsAux_apply (g : Grid) (k : Nat) :
    ∀ r c, shiftRowsAux g k r c = if r < k ∧ c < 25 then g (r + 1) c else g r c := by
  induction k with
  | zero =>
    intro r c
    simp [shiftRowsAux]
  | succ m ih =>
    intro r c
    have h1 : 1 ≤ 1 + m := by omega
    rw [shiftRowsAux_succ, copyCols_apply _ _ h1]
    have hm : 1 + m - 1 = m := by omega
    have hadd : 1 + m = m + 1 := by omega
    rw [hm, hadd]
    by_cases hr : r = m
    · subst hr
      by_cases hc : c < 25
      · have hlt : ¬ (r < r ∧ c < 25) := by omega
        simp [hc, ih, hlt, Nat.lt_succ_self]
      · simp [hc, ih]
    · by_cases hrm : r < m
      · have hs : r < m + 1 := by omega
        by_cases hc : c < 25
        · simp [hr, hrm, hs, hc, ih]
        · simp [hr, hrm, hs, hc, ih]
      · have hs : ¬ r < m + 1 := by omega
        simp [hr, hrm, hs, ih]

theorem shiftRows_apply (g : Grid) (r c : Nat) :
    shiftRows g r c = if r < 24 ∧ c < 25 then g (r + 1) c else g r c := by
  show shiftRowsAux g (BUFFER_HEIGHT - 1) r c = _
  exact shiftRowsAux_apply g 24 r c

theorem clearColsAux_succ (g : Grid) (row : Nat) (blank : ScreenChar) (m : Nat) :
    clearColsAux g row blank (m + 1)
      = writeCell (clearColsAux g row blank m) row m blank := by
  unfold clearColsAux
  rw [List.range_succ, List.foldl_append]
  simp only [List.foldl_cons, List.foldl_nil]

theorem clearColsAux_apply (g : Grid) (row : Nat) (blank : ScreenChar) (n : Nat) :
    ∀ r c, clearColsAux g row blank n r c = if r = row ∧ c < n then blank else g r c := by
  induction n with
  | zero =>
    intro r c
    simp [clearColsAux]
  | succ m ih =>
    intro r c
    rw [clearColsAux_succ, writeCell_apply]
    by_cases hr : r = row
    · by_cases hc : c = m
      · subst hr
        subst hc
        simp [Nat.lt_succ_self]
      · by_cases hcm : c < m
        · have hs : c < m + 1 := by omega
          simp [hc, hcm, hr, hs, ih]
        · have hs : ¬ c < m + 1 := by omega
          simp [hc, hcm, hr, hs, ih]
    · simp [hr, ih]

/-
  Helper lemmas: the shape of new_line and write_byte.
-/

theorem new_line_buffer (w : Writer) (r c : Nat) :
    (new_line w).buffer r c =
      if r = 24 ∧ c < 80 then { ascii_character := 0x20, color_code := w.color_code }
      else if r < 24 ∧ c < 25 then w.buffer (r + 1) c
      else w.buffer r c := by
  show clearColsAux (shiftRows w.buffer) 24
      { ascii_character := 0x20, color_code := w.color_code } 80 r c = _
  rw [clearColsAux_apply, shiftRows_apply]

theorem new_line_column (w : Writer) : (new_line w).column_position = 0 := rfl

theorem new_line_scrolls (w : Writer) : (new_line w).scrolls = w.scrolls + 1 := rfl

theorem new_line_color (w : Writer) : (new_line w).color_code = w.color_code := rfl

theorem write_byte_newline_eq (w : Writer) : write_byte w 10 = new_line w := rfl

theorem write_byte_small (w : Writer) (b : Nat) (hb : ¬ b = 10)
    (hc : w.column_position < 80) :
    write_byte w b =
      { w with
        buffer := writeCell w.buffer 24 w.column_position
          { ascii_character := b, color_code := w.color_code },
        column_position := w.column_position + 1 } := by
  have hnle : ¬ BUFFER_WIDTH ≤ w.column_position := by
    show ¬ 80 ≤ w.column_position
    omega
  simp [write_byte, hb, hnle]
  rfl

theorem write_byte_wrap (w : Writer) (b : Nat) (hb : ¬ b = 10)
    (hc : 80 ≤ w.column_position) :
    write_byte w b =
      { new_line w with
        buffer := writeCell (new_line w).buffer 24 0
          { ascii_character := b, color_code := w.color_code },
        column_position := 1 } := by
  have hle : BUFFER_WIDTH ≤ w.column_position := by
    show 80 ≤ w.column_position
    omega
  simp [write_byte, hb, hle]
  constructor
  · rfl
  · rfl

theorem write_string_cons (w : Writer) (b : Nat) (t : List Nat) :
    write_string w (b :: t)
      = write_string
          (if (0x20 ≤ b ∧ b ≤ 0x7e) ∨ b = 10 then write_byte w b
           else write_byte w 0xfe) t := rfl

theorem writeBytes_cons (w : Writer) (b : Nat) (t : List Nat) :
    writeBytes w (b :: t) = writeBytes (write_byte w b) t := rfl

theorem writeColored_cons (w : Writer) (p : Nat × Nat) (pt : List (Nat × Nat)) :
    writeColored w (p :: pt)
      = writeColored (write_byte { w with color_code := p.1 } p.2) pt := rfl

/-
  Helper lemmas: the column position stays in 0..=80.
-/

theorem write_byte_column_le (w : Writer) (b : Nat) (h : w.column_position ≤ 80) :
    (write_byte w b).column_position ≤ 80 := by
  by_cases hb : b = 10
  · subst hb
    rw [write_byte_newline_eq, new_line_column]
    omega
  · by_cases hc : w.column_position < 80
    · rw [write_byte_small w b hb hc]
      show w.column_position + 1 ≤ 80
      omega
    · rw [write_byte_wrap w b hb (by omega)]
      show 1 ≤ 80
      omega

theorem write_string_column_le (w : Writer) (s : List Nat)
    (h : w.column_position ≤ 80) :
    (write_string w s).column_position ≤ 80 := by
  induction s generalizing w with
  | nil => exact h
  | cons b t ih =>
    rw [write_string_cons]
    by_cases hcond : (0x20 ≤ b ∧ b ≤ 0x7e) ∨ b = 10
    · rw [if_pos hcond]
      exact ih _ (write_byte_column_le w b h)
    · rw [if_neg hcond]
      exact ih _ (write_byte_column_le w 0xfe h)

/-
  Helper lemmas: preservation of the printable-or-substitution invariant.
-/

theorem gridInv_writeCell (g : Grid) (r c : Nat) (ch : ScreenChar)
    (hg : gridInv g) (hch : printableOrSub ch.ascii_character) :
    gridInv (writeCell g r c ch) := by
  intro rr hrr cc hcc
  rw [writeCell_apply]
  by_cases h : rr = r ∧ cc = c
  · rw [if_pos h]
    exact hch
  · rw [if_neg h]
    exact hg rr hrr cc hcc

theorem gridInv_new_line (w : Writer) (hw : gridInv w.buffer) :
    gridInv (new_line w).buffer := by
  intro r hr c hc
  have hr2 : r < 25 := hr
  have hc2 : c < 80 := hc
  rw [new_line_buffer]
  by_cases h1 : r = 24 ∧ c < 80
  · rw [if_pos h1]
    show printableOrSub 0x20
    decide
  · rw [if_neg h1]
    by_cases h2 : r < 24 ∧ c < 25
    · rw [if_pos h2]
      exact hw (r + 1) (show r + 1 < 25 by omega) c (show c < 80 by omega)
    · rw [if_neg h2]
      exact hw r hr c hc

theorem gridInv_write_byte (w : Writer) (b : Nat)
    (hw : gridInv w.buffer) (hb : printableOrSub b ∨ b = 10) :
    gridInv (write_byte w b).buffer := by
  by_cases h10 : b = 10
  · subst h10
    rw [write_byte_newline_eq]
    exact gridInv_new_line w hw
  · have hps : printableOrSub b := by
      rcases hb with h | h
      · exact h
      · exact absurd h h10
    by_cases hc : w.column_position < 80
    · rw [write_byte_small w b h10 hc]
      exact gridInv_writeCell _ _ _ _ hw hps
    · rw [write_byte_wrap w b h10 (by omega)]
      exact gridInv_writeCell _ _ _ _ (gridInv_new_line w hw) hps

theorem gridInv_write_string (w : Writer) (s : List Nat) (hw : gridInv w.buffer) :
    gridInv (write_string w s).buffer := by
  induction s generalizing w with
  | nil => exact hw
  | cons b t ih =>
    rw [write_string_cons]
    by_cases hcond : (0x20 ≤ b ∧ b ≤ 0x7e) ∨ b = 10
    · rw [if_pos hcond]
      apply ih
      apply gridInv_write_byte w b hw
      rcases hcond with h | h
      · exact Or.inl (Or.inl h)
      · exact Or.inr h
    · rw [if_neg hcond]
      apply ih
      exact gridInv_write_byte w 0xfe hw (Or.inl (Or.inr rfl))

/-
  Helper lemmas: writing printable bytes advances the column one by one
  without scrolling, and records the written bytes on the last row.
-/

theorem writeBytes_printable_spec (s : List Nat) :
    ∀ w : Writer, (∀ b ∈ s, printable b) → w.column_position + s.length ≤ 80 →
      (writeBytes w s).column_position = w.column_position + s.length ∧
      (writeBytes w s).scrolls = w.scrolls := by
  induction s with
  | nil =>
    intro w _ _
    exact ⟨rfl, rfl⟩
  | cons b t ih =>
    intro w hs hlen
    have hb : printable b := hs b (List.mem_cons_self b t)
    have h32 : 0x20 ≤ b := hb.1
    have hb10 : ¬ b = 10 := by omega
    have hlen2 : w.column_position + (t.length + 1) ≤ 80 := by
      simpa using hlen
    have hc : w.column_position < 80 := by omega
    have hcol : (write_byte w b).column_position = w.column_position + 1 := by
      rw [write_byte_small w b hb10 hc]
    have hscr : (write_byte w b).scrolls = w.scrolls := by
      rw [write_byte_small w b hb10 hc]
    obtain ⟨ih1, ih2⟩ :=
      ih (write_byte w b) (fun x hx => hs x (List.mem_cons_of_mem b hx))
        (by rw [hcol]; omega)
    constructor
    · rw [writeBytes_cons, ih1, hcol]
      show w.column_position + 1 + t.length = w.column_position + (t.length + 1)
      omega
    · rw [writeBytes_cons, ih2, hscr]

theorem writeColored_spec (ps : List (Nat × Nat)) :
    ∀ w : Writer, (∀ p ∈ ps, printable p.2) →
      w.column_position + ps.length ≤ 80 →
      (writeColored w ps).column_position = w.column_position + ps.length ∧
      ∀ r c, (writeColored w ps).buffer r c =
        if r = 24 ∧ w.column_position ≤ c ∧ c < w.column_position + ps.length
        then { ascii_character := (ps.getD (c - w.column_position) (0, 0)).2,
               color_code := (ps.getD (c - w.column_position) (0, 0)).1 }
        else w.buffer r c := by
  induction ps with
  | nil =>
    intro w _ _
    constructor
    · exact rfl
    · intro r c
      have hno : ¬ (r = 24 ∧ w.column_position ≤ c
          ∧ c < w.column_position + ([] : List (Nat × Nat)).length) := by
        simp
      show w.buffer r c = _
      rw [if_neg hno]
  | cons p pt ih =>
    intro w hp hlen
    have hpp : printable p.2 := hp p (List.mem_cons_self p pt)
    have h32 : 0x20 ≤ p.2 := hpp.1
    have hb10 : ¬ p.2 = 10 := by omega
    have hlen2 : w.column_position + (pt.length + 1) ≤ 80 := by
      simpa using hlen
    have hc : w.column_position < 80 := by omega
    have hcol : (write_byte { w with color_code := p.1 } p.2).column_position
        = w.column_position + 1 := by
      rw [write_byte_small { w with color_code := p.1 } p.2 hb10 hc]
    have hbuf : (write_byte { w with color_code := p.1 } p.2).buffer
        = writeCell w.buffer 24 w.column_position
            { ascii_character := p.2, color_code := p.1 } := by
      rw [write_byte_small { w with color_code := p.1 } p.2 hb10 hc]
    obtain ⟨ih1, ih2⟩ :=
      ih (write_byte { w with color_code := p.1 } p.2)
        (fun x hx => hp x (List.mem_cons_of_mem p hx))
        (by rw [hcol]; omega)
    constructor
    · rw [writeColored_cons, ih1, hcol]
      show w.column_position + 1 + pt.length = w.column_position + (pt.length + 1)
      omega
    · intro r c
      rw [writeColored_cons, ih2 r c, hcol, hbuf, writeCell_apply]
      simp only [List.length_cons]
      by_cases hr : r = 24
      · subst hr
        by_cases hup : w.column_position + 1 ≤ c ∧ c < w.column_position + 1 + pt.length
        · have hcond : (24 : Nat) = 24 ∧ w.column_position + 1 ≤ c
              ∧ c < w.column_position + 1 + pt.length := ⟨rfl, hup⟩
          rw [if_pos hcond]
          have hcond2 : (24 : Nat) = 24 ∧ w.column_position ≤ c
              ∧ c < w.column_position + (pt.length + 1) := ⟨rfl, by omega, by omega⟩
          rw [if_pos hcond2]
          have hsub : c - w.column_position = (c - (w.column_position + 1)) + 1 := by
            omega
          rw [hsub, List.getD_cons_succ]
        · have hcond : ¬ ((24 : Nat) = 24 ∧ w.column_position + 1 ≤ c
              ∧ c < w.column_position + 1 + pt.length) := by
            intro h
            exact hup h.2
          rw [if_neg hcond]
          by_cases hceq : c = w.column_position
          · have hcell : (24 : Nat) = 24 ∧ c = w.column_position := ⟨rfl, hceq⟩
            rw [if_pos hcell]
            have hcond2 : (24 : Nat) = 24 ∧ w.column_position ≤ c
                ∧ c < w.column_position + (pt.length + 1) := ⟨rfl, by omega, by omega⟩
            rw [if_pos hcond2]
            have hzero : c - w.column_position = 0 := by omega
            rw [hzero, List.getD_cons_zero]
          · have hcell : ¬ ((24 : Nat) = 24 ∧ c = w.column_position) := by
              intro h
              exact hceq h.2
            rw [if_neg hcell]
            have hcond2 : ¬ ((24 : Nat) = 24 ∧ w.column_position ≤ c
                ∧ c < w.column_position + (pt.length + 1)) := by
              intro h
              omega
            rw [if_neg hcond2]
      · have h1 : ¬ (r = 24 ∧ w.column_position + 1 ≤ c
            ∧ c < w.column_position + 1 + pt.length) := by
          intro h
          exact hr h.1
        have h2 : ¬ (r = 24 ∧ c = w.column_position) := by
          intro h
          exact hr h.1
        have h3 : ¬ (r = 24 ∧ w.column_position ≤ c
            ∧ c < w.column_position + (pt.length + 1)) := by
          intro h
          exact hr h.1
        rw [if_neg h1, if_neg h2, if_neg h3]

/-
  Claim theorems.
-/

/-- C1: the claim states that after a line advance every one of the 80
columns of each row moves up one row and the old row 0 content is gone.
On the code the inner copy loop of new_line runs col in 0..BUFFER_HEIGHT
(25), not 0..BUFFER_WIDTH (80), so columns 25..79 are not copied. Evaluated
at a concrete failing input: the writer wbug holds byte 65 at (0, 40) and
byte 88 at (1, 40); after the line advance triggered by write_byte on the
newline byte, cell (0, 40) still holds the old row 0 byte 65 instead of the
row 1 byte 88. -/
theorem newline_copy_loop_truncated :
    (write_byte wbug 10).buffer 0 40 = wbug.buffer 0 40 ∧
    wbug.buffer 0 40 = { ascii_character := 65, color_code := 14 } ∧
    wbug.buffer 1 40 = { ascii_character := 88, color_code := 14 } ∧
    ¬ (write_byte wbug 10).buffer 0 40 = wbug.buffer 1 40 := by
  have h1 : (write_byte wbug 10).buffer 0 40 = wbug.buffer 0 40 := by
    rw [write_byte_newline_eq, new_line_buffer]
    have hA : ¬ ((0:Nat) = 24 ∧ (40:Nat) < 80) := by omega
    have hB : ¬ ((0:Nat) < 24 ∧ (40:Nat) < 25) := by omega
    rw [if_neg hA, if_neg hB]
  refine ⟨h1, by decide, by decide, ?_⟩
  rw [h1]
  decide

/-- C2: during a line advance only columns 0..24 of each row are copied
upward; for every row below 24, columns 25..79 keep exactly their old
values, while row 24 is cleared across all 80 columns with blanks carrying
the active color. -/
theorem new_line_partial_copy_frame (w : Writer) :
    (∀ r c, r < 24 → c < 25 → (new_line w).buffer r c = w.buffer (r + 1) c) ∧
    (∀ r c, r < 24 → 25 ≤ c → c < 80 → (new_line w).buffer r c = w.buffer r c) ∧
    (∀ c, c < 80 → (new_line w).buffer 24 c
        = { ascii_character := 0x20, color_code := w.color_code }) := by
  refine ⟨?_, ?_, ?_⟩
  · intro r c hr hc
    rw [new_line_buffer]
    have hA : ¬ (r = 24 ∧ c < 80) := by omega
    have hB : r < 24 ∧ c < 25 := ⟨hr, hc⟩
    rw [if_neg hA, if_pos hB]
  · intro r c hr hc1 hc2
    rw [new_line_buffer]
    have hA : ¬ (r = 24 ∧ c < 80) := by omega
    have hB : ¬ (r < 24 ∧ c < 25) := by omega
    rw [if_neg hA, if_neg hB]
  · intro c hc
    rw [new_line_buffer]
    have hA : (24:Nat) = 24 ∧ c < 80 := ⟨rfl, hc⟩
    rw [if_pos hA]

/-- Witness for C2 at the concrete writer winv. -/
theorem new_line_partial_copy_frame_witness :
    (new_line winv).buffer 0 3 = winv.buffer 1 3 ∧
    (new_line winv).buffer 0 30 = winv.buffer 0 30 ∧
    (new_line winv).buffer 24 0
      = { ascii_character := 0x20, color_code := winv.color_code } :=
  ⟨(new_line_partial_copy_frame winv).1 0 3 (by decide) (by decide),
   (new_line_partial_copy_frame winv).2.1 0 30 (by decide) (by decide) (by decide),
   (new_line_partial_copy_frame winv).2.2 0 (by decide)⟩

/-- C7: writing the newline byte is exactly one line advance: the whole
effect of write_byte 10 is new_line, which writes no visible character cell
of its own, leaves the column at 0, and bumps the ghost scroll counter by
exactly one. -/
theorem write_byte_newline_advances_line (w : Writer) :
    write_byte w 10 = new_line w ∧
    (write_byte w 10).column_position = 0 ∧
    (write_byte w 10).scrolls = w.scrolls + 1 :=
  ⟨rfl, rfl, rfl⟩

/-- C10: from a writer at column 0, one printable byte advances the column
by exactly 1 and leaves every cell of rows 0..23 unchanged. -/
theorem write_byte_initial_frame (w : Writer) (b : Nat)
    (hcol : w.column_position = 0) (hb : printable b) :
    (write_byte w b).column_position = w.column_position + 1 ∧
    ∀ r c, r < 24 → (write_byte w b).buffer r c = w.buffer r c := by
  have h32 : 0x20 ≤ b := hb.1
  have hb10 : ¬ b = 10 := by omega
  have hc : w.column_position < 80 := by omega
  rw [write_byte_small w b hb10 hc]
  constructor
  · rfl
  · intro r c hr
    show writeCell w.buffer 24 w.column_position
        { ascii_character := b, color_code := w.color_code } r c = w.buffer r c
    rw [writeCell_apply]
    have hno : ¬ (r = 24 ∧ c = w.column_position) := by omega
    rw [if_neg hno]

/-- Witness for C10 at the concrete writer winv and byte 65. -/
theorem write_byte_initial_frame_witness :
    winv.column_position = 0 ∧ printable 65 ∧
    (write_byte winv 65).column_position = winv.column_position + 1 ∧
    (write_byte winv 65).buffer 3 7 = winv.buffer 3 7 :=
  ⟨rfl, by decide,
   (write_byte_initial_frame winv 65 rfl (by decide)).1,
   (write_byte_initial_frame winv 65 rfl (by decide)).2 3 7 (by decide)⟩

/-- C3 counterexample: the claim quantifies over write_byte with any u8,
but write_byte stores its argument unfiltered, so the control byte 1
(neither printable nor the substitution glyph 0xfe) lands in the grid and
breaks the invariant, starting from a grid of blanks that satisfies it. -/
theorem write_byte_any_u8_breaks_ascii_inv :
    gridInv winv.buffer ∧ (1:Nat) < 256 ∧
    ¬ gridInv (runOps winv [Op.byte 1]).buffer := by
  refine ⟨by decide, by decide, ?_⟩
  intro h
  have hcell := h 24 (by decide) 0 (by decide)
  have heq : (runOps winv [Op.byte 1]).buffer 24 0
      = { ascii_character := 1, color_code := 14 } := by
    show (write_byte winv 1).buffer 24 0 = _
    rw [write_byte_small winv 1 (by decide) (by decide)]
    show writeCell winv.buffer 24 0
        { ascii_character := 1, color_code := winv.color_code } 24 0 = _
    rw [writeCell_apply, if_pos ⟨rfl, rfl⟩]
    rfl
  rw [heq] at hcell
  exact absurd hcell (by decide)

/-- C3 amended: for every sequence of public operations in which each direct
write_byte argument is printable, the newline byte, or the substitution
glyph (write_string calls may carry arbitrary bytes), every cell of a grid
satisfying the printable-or-substitution invariant still satisfies it after
the whole sequence. -/
theorem sanitized_ops_preserve_ascii_inv (l : List Op) :
    ∀ w : Writer, gridInv w.buffer → (∀ o ∈ l, okByte o) →
      gridInv (runOps w l).buffer := by
  induction l with
  | nil =>
    intro w hw _
    exact hw
  | cons o t ih =>
    intro w hw hl
    have ho : okByte o := hl o (List.mem_cons_self o t)
    have hstep : gridInv (runOp w o).buffer := by
      cases o with
      | byte b => exact gridInv_write_byte w b hw ho
      | str s => exact gridInv_write_string w s hw
    show gridInv (runOps (runOp w o) t).buffer
    exact ih (runOp w o) hstep (fun x hx => hl x (List.mem_cons_of_mem o hx))

/-- Witness for the amended C3: a mixed operation sequence on winv. -/
theorem sanitized_ops_preserve_ascii_inv_witness :
    gridInv winv.buffer ∧
    gridInv (runOps winv [Op.str [72, 1, 200], Op.byte 10, Op.byte 65]).buffer :=
  ⟨by decide,
   sanitized_ops_preserve_ascii_inv [Op.str [72, 1, 200], Op.byte 10, Op.byte 65]
     winv (by decide) (by decide)⟩

/-- C4: set_color (modelled from the spec, since the source Writer exposes
no such method) replaces the active color used by subsequent writes and
changes no existing cell of the grid and no cursor state. -/
theorem set_color_updates_only_active_color (w : Writer) (clr b : Nat)
    (hb : printable b) (hcol : w.column_position < 80) :
    (set_color w clr).buffer = w.buffer ∧
    (set_color w clr).column_position = w.column_position ∧
    (set_color w clr).color_code = clr ∧
    (write_byte (set_color w clr) b).buffer 24 w.column_position
      = { ascii_character := b, color_code := clr } := by
  refine ⟨rfl, rfl, rfl, ?_⟩
  have h32 : 0x20 ≤ b := hb.1
  have hb10 : ¬ b = 10 := by omega
  rw [write_byte_small (set_color w clr) b hb10 hcol]
  show writeCell w.buffer 24 w.column_position
      { ascii_character := b, color_code := clr } 24 w.column_position = _
  rw [writeCell_apply, if_pos ⟨rfl, rfl⟩]

/-- Witness for C4 at winv, color 5, byte 66. -/
theorem set_color_updates_only_active_color_witness :
    printable 66 ∧ winv.column_position < 80 ∧
    (set_color winv 5).buffer = winv.buffer ∧
    (write_byte (set_color winv 5) 66).buffer 24 winv.column_position
      = { ascii_character := 66, color_code := 5 } :=
  ⟨by decide, by decide,
   (set_color_updates_only_active_color winv 5 66 (by decide) (by decide)).1,
   (set_color_updates_only_active_color winv 5 66 (by decide) (by decide)).2.2.2⟩

/-- C5 counterexample: the byte 0xfe lies outside 0x20..=0x7e and is not
the newline byte, yet write_string renders it as 0xfe, which is its own
original value, refuting the clause that no byte outside the range is ever
rendered as its original value. -/
theorem substitution_glyph_byte_rendered_as_itself :
    ¬ ((0x20 ≤ (0xfe:Nat) ∧ (0xfe:Nat) ≤ 0x7e) ∨ (0xfe:Nat) = 10) ∧
    (write_string winv [0xfe]).buffer 24 0
      = { ascii_character := 0xfe, color_code := 14 } := by
  constructor
  · decide
  · rw [write_string_cons, if_neg (by decide)]
    show (write_byte winv 0xfe).buffer 24 0 = _
    rw [write_byte_small winv 0xfe (by decide) (by decide)]
    show writeCell winv.buffer 24 0
        { ascii_character := 0xfe, color_code := winv.color_code } 24 0 = _
    rw [writeCell_apply, if_pos ⟨rfl, rfl⟩]
    rfl

/-- C5 amended: write_string forwards exactly the substituted byte of every
input byte to write_byte: bytes in 0x20..=0x7e and the newline byte pass
unchanged, every other byte becomes the glyph 0xfe, and so every byte
outside the range other than 0xfe itself is never rendered as its original
value. -/
theorem write_string_sanitizes (w : Writer) (s : List Nat) :
    write_string w s = s.foldl (fun ww b => write_byte ww ( substitute b)) w ∧
    (∀ b, ((0x20 ≤ b ∧ b ≤ 0x7e) ∨ b = 10) → substitute b = b) ∧
    (∀ b, ¬ ((0x20 ≤ b ∧ b ≤ 0x7e) ∨ b = 10) → substitute b = 0xfe) ∧
    (∀ b, ¬ ((0x20 ≤ b ∧ b ≤ 0x7e) ∨ b = 10) → ¬ b = 0xfe →
      ¬ substitute b = b) := by
  refine ⟨?_, ?_, ?_, ?_⟩
  · have hstep : (fun (ww : Writer) (b : Nat) =>
        if (0x20 ≤ b ∧ b ≤ 0x7e) ∨ b = 10 then write_byte ww b
        else write_byte ww 0xfe)
        = fun (ww : Writer) (b : Nat) => write_byte ww ( substitute b) := by
      funext ww b
      by_cases h : (0x20 ≤ b ∧ b ≤ 0x7e) ∨ b = 10
      · show _ = write_byte ww (if (0x20 ≤ b ∧ b ≤ 0x7e) ∨ b = 10 then b else 0xfe)
        rw [if_pos h, if_pos h]
      · show _ = write_byte ww (if (0x20 ≤ b ∧ b ≤ 0x7e) ∨ b = 10 then b else 0xfe)
        rw [if_neg h, if_neg h]
    show s.foldl _ w = _
    rw [hstep]
  · intro b h
    show (if (0x20 ≤ b ∧ b ≤ 0x7e) ∨ b = 10 then b else 0xfe) = b
    rw [if_pos h]
  · intro b h
    show (if (0x20 ≤ b ∧ b ≤ 0x7e) ∨ b = 10 then b else 0xfe) = 0xfe
    rw [if_neg h]
  · intro b h hne
    show ¬ (if (0x20 ≤ b ∧ b ≤ 0x7e) ∨ b = 10 then b else 0xfe) = b
    rw [if_neg h]
    intro he
    exact hne he.symm

/-- Witness for the amended C5: the list holding only the byte 200. -/
theorem write_string_sanitizes_witness :
    write_string winv [200]
      = [200].foldl (fun ww b => write_byte ww ( substitute b)) winv ∧
    substitute 65 = 65 ∧ substitute 200 = 0xfe ∧ ¬ substitute 200 = 200 :=
  ⟨(write_string_sanitizes winv [200]).1,
   (write_string_sanitizes winv [200]).2.1 65 (by decide),
   (write_string_sanitizes winv [200]).2.2.1 200 (by decide),
   (write_string_sanitizes winv [200]).2.2.2 200 (by decide) (by decide)⟩

/-- C6: from column 0, eighty printable bytes cause no line advance; the
eighty-first printable byte causes exactly one line advance before it is
written and leaves the column at 1. Equivalently, on any writer state with
column at most 80, write_byte of a printable byte advances the line exactly
when the column equals 80, then stores the byte at (24, column) with the
active color and increments the column. -/
theorem line_advance_exactly_at_column_80 (s : List Nat) (w : Writer) (b : Nat)
    (hcol : w.column_position = 0) (hlen : s.length = 80)
    (hs : ∀ x ∈ s, printable x) (hb : printable b) :
    (writeBytes w s).scrolls = w.scrolls ∧
    (write_byte (writeBytes w s) b).scrolls = w.scrolls + 1 ∧
    (write_byte (writeBytes w s) b).column_position = 1 ∧
    (∀ w2 : Writer, w2.column_position ≤ 80 →
      (write_byte w2 b).scrolls
          = w2.scrolls + (if w2.column_position = 80 then 1 else 0) ∧
      (write_byte w2 b).column_position
          = (if w2.column_position = 80 then 0 else w2.column_position) + 1 ∧
      (write_byte w2 b).buffer 24
          (if w2.column_position = 80 then 0 else w2.column_position)
        = { ascii_character := b, color_code := w2.color_code }) := by
  have h32 : 0x20 ≤ b := hb.1
  have hb10 : ¬ b = 10 := by omega
  have hgen : ∀ w2 : Writer, w2.column_position ≤ 80 →
      (write_byte w2 b).scrolls
          = w2.scrolls + (if w2.column_position = 80 then 1 else 0) ∧
      (write_byte w2 b).column_position
          = (if w2.column_position = 80 then 0 else w2.column_position) + 1 ∧
      (write_byte w2 b).buffer 24
          (if w2.column_position = 80 then 0 else w2.column_position)
        = { ascii_character := b, color_code := w2.color_code } := by
    intro w2 hle
    by_cases h80 : w2.column_position = 80
    · simp only [h80, if_pos rfl]
      rw [write_byte_wrap w2 b hb10 (by omega)]
      refine ⟨?_, rfl, ?_⟩
      · show (new_line w2).scrolls = w2.scrolls + 1
        exact new_line_scrolls w2
      · show writeCell (new_line w2).buffer 24 0
            { ascii_character := b, color_code := w2.color_code } 24 0 = _
        rw [writeCell_apply, if_pos ⟨rfl, rfl⟩]
    · simp only [h80, if_neg h80]
      have hlt : w2.column_position < 80 := by omega
      rw [write_byte_small w2 b hb10 hlt]
      refine ⟨?_, rfl, ?_⟩
      · show w2.scrolls = w2.scrolls + 0
        omega
      · show writeCell w2.buffer 24 w2.column_position
            { ascii_character := b, color_code := w2.color_code } 24
            w2.column_position = _
        rw [writeCell_apply, if_pos ⟨rfl, rfl⟩]
  obtain ⟨hcol80, hscr80⟩ := writeBytes_printable_spec s w hs (by omega)
  have hc80 : (writeBytes w s).column_position = 80 := by
    rw [hcol80, hcol, hlen]
  refine ⟨hscr80, ?_, ?_, hgen⟩
  · obtain ⟨h1, _, _⟩ := hgen (writeBytes w s) (by omega)
    rw [h1, hc80, if_pos rfl, hscr80]
  · obtain ⟨_, h2, _⟩ := hgen (writeBytes w s) (by omega)
    rw [h2, hc80, if_pos rfl]

/-- Witness for C6: eighty copies of byte 65, then byte 66, on winv. -/
theorem line_advance_exactly_at_column_80_witness :
    winv.column_position = 0 ∧ s80.length = 80 ∧
    (writeBytes winv s80).scrolls = winv.scrolls ∧
    (write_byte (writeBytes winv s80) 66).scrolls = winv.scrolls + 1 ∧
    (write_byte (writeBytes winv s80) 66).column_position = 1 :=
  ⟨rfl, by decide,
   (line_advance_exactly_at_column_80 s80 winv 66 rfl (by decide)
      (by decide) (by decide)).1,
   (line_advance_exactly_at_column_80 s80 winv 66 rfl (by decide)
      (by decide) (by decide)).2.1,
   (line_advance_exactly_at_column_80 s80 winv 66 rfl (by decide)
      (by decide) (by decide)).2.2.1⟩

/-- C8: on any writer whose column is at most 80 (every reachable state),
all grid indices the operations touch are in range: the cell write of
write_byte targets row 24 of 25 and a column below 80, the loop indices of
new_line and clear_row stay below 25 and 80, and every operation leaves the
column at most 80, so no out of range access arises. -/
theorem writer_accesses_in_bounds (w : Writer) (b : Nat)
    (hw : w.column_position ≤ 80) :
    BUFFER_HEIGHT - 1 < BUFFER_HEIGHT ∧
    (¬ b = 10 →
      (if BUFFER_WIDTH ≤ w.column_position then new_line w
       else w).column_position < BUFFER_WIDTH) ∧
    (∀ row ∈ List.range' 1 (BUFFER_HEIGHT - 1),
      0 < row ∧ row < BUFFER_HEIGHT ∧ row - 1 < BUFFER_HEIGHT) ∧
    (∀ col ∈ List.range BUFFER_HEIGHT, col < BUFFER_WIDTH) ∧
    (∀ col ∈ List.range BUFFER_WIDTH, col < BUFFER_WIDTH) ∧
    (write_byte w b).column_position ≤ 80 ∧
    (∀ s, (write_string w s).column_position ≤ 80) ∧
    (new_line w).column_position ≤ 80 := by
  refine ⟨by decide, ?_, ?_, ?_, ?_, write_byte_column_le w b hw,
    fun s => write_string_column_le w s hw, ?_⟩
  · intro hb10
    by_cases h80 : BUFFER_WIDTH ≤ w.column_position
    · rw [if_pos h80, new_line_column]
      decide
    · rw [if_neg h80]
      have h2 : ¬ 80 ≤ w.column_position := h80
      show w.column_position < 80
      omega
  · intro row hrow
    have h := List.mem_range'_1.mp hrow
    have h1 : 1 ≤ row := h.1
    have h2 : row < 1 + (BUFFER_HEIGHT - 1) := h.2
    have h3 : row < 1 + 24 := h2
    refine ⟨by omega, show row < 25 by omega, show row - 1 < 25 by omega⟩
  · intro col hcol
    have h : col < BUFFER_HEIGHT := List.mem_range.mp hcol
    have h25 : col < 25 := h
    show col < 80
    omega
  · intro col hcol
    exact List.mem_range.mp hcol
  · rw [new_line_column]
    omega

/-- Witness for C8 at winv and byte 65. -/
theorem writer_accesses_in_bounds_witness :
    winv.column_position ≤ 80 ∧
    (write_byte winv 65).column_position ≤ 80 ∧
    (new_line winv).column_position ≤ 80 :=
  ⟨by decide,
   (writer_accesses_in_bounds winv 65 (by decide)).2.2.2.2.2.1,
   (writer_accesses_in_bounds winv 65 (by decide)).2.2.2.2.2.2.2⟩

/-- C9: round trip. From column 0, writing fewer than 80 printable bytes,
each written under the color active at that moment, leaves at cell (24, i)
exactly the i-th byte paired with the i-th active color. -/
theorem printable_write_round_trip (ps : List (Nat × Nat)) (w : Writer)
    (hcol : w.column_position = 0) (hn : ps.length < 80)
    (hp : ∀ p ∈ ps, printable p.2) :
    ∀ i < ps.length,
      (writeColored w ps).buffer 24 i
        = { ascii_character := (ps.getD i (0, 0)).2,
            color_code := (ps.getD i (0, 0)).1 } := by
  intro i hi
  obtain ⟨_, h2⟩ := writeColored_spec ps w hp (by omega)
  rw [h2 24 i]
  have hcond : (24:Nat) = 24 ∧ w.column_position ≤ i
      ∧ i < w.column_position + ps.length := ⟨rfl, by omega, by omega⟩
  rw [if_pos hcond]
  have hz : i - w.column_position = i := by omega
  rw [hz]

/-- Witness for C9: two colored bytes on winv, read back at column 1. -/
theorem printable_write_round_trip_witness :
    winv.column_position = 0 ∧
    ([(3, 72), (5, 105)] : List (Nat × Nat)).length < 80 ∧
    (writeColored winv [(3, 72), (5, 105)]).buffer 24 1
      = { ascii_character := (([(3, 72), (5, 105)] : List (Nat × Nat)).getD 1 (0, 0)).2,
          color_code := (([(3, 72), (5, 105)] : List (Nat × Nat)).getD 1 (0, 0)).1 } :=
  ⟨rfl, by decide,
   printable_write_round_trip [(3, 72), (5, 105)] winv rfl (by decide)
     (by decide) 1 (by decide)⟩

end Vga
